import Mathlib

/-!
Verification of the bashamole frontend core: adjacency resolver, mole-lifecycle
tree transforms, command-execution pipeline, direction-indicator scheduling,
layout separation, and camera choreography, shallowly embedded from the
TypeScript sources.
-/

namespace Bashamole

/-! ## Tree model (src/lib/api.ts `TreeNode`) -/

/-- `TreeNode` from src/lib/api.ts: `{name, path, is_fhs, description, has_mole,
children}`. -/
inductive TreeNode : Type where
  | mk : (name : String) → (path : String) → (is_fhs : Bool) →
      (description : String) → (has_mole : Bool) →
      (children : List TreeNode) → TreeNode

def TreeNode.name : TreeNode → String
  | .mk n _ _ _ _ _ => n

def TreeNode.path : TreeNode → String
  | .mk _ p _ _ _ _ => p

def TreeNode.is_fhs : TreeNode → Bool
  | .mk _ _ f _ _ _ => f

def TreeNode.description : TreeNode → String
  | .mk _ _ _ d _ _ => d

def TreeNode.has_mole : TreeNode → Bool
  | .mk _ _ _ _ m _ => m

def TreeNode.children : TreeNode → List TreeNode
  | .mk _ _ _ _ _ cs => cs

/-- `updateTreeDataToShowMole` from src/frontend/src/hooks/useTreeUtils.ts:
if the node's path equals the mole path it is returned with `has_mole: true`
(children untouched); otherwise the function maps itself over the children. -/
def updateTreeDataToShowMole (t : TreeNode) (molePath : String) : TreeNode :=
  match t with
  | .mk n p f d m cs =>
    if p = molePath then .mk n p f d true cs
    else .mk n p f d m (cs.attach.map (fun c => updateTreeDataToShowMole c.1 molePath))
termination_by sizeOf t
decreasing_by
  have := List.sizeOf_lt_of_mem c.2
  simp only [TreeNode.mk.sizeOf_spec]
  omega

/-- `removeMoleFromTree` from src/frontend/src/hooks/useTreeUtils.ts: clears
`has_mole` on every node (normalising absent children to `[]`). -/
def removeMoleFromTree (t : TreeNode) : TreeNode :=
  match t with
  | .mk n p f d _ cs => .mk n p f d false (cs.attach.map (fun c => removeMoleFromTree c.1))
termination_by sizeOf t
decreasing_by
  have := List.sizeOf_lt_of_mem c.2
  simp only [TreeNode.mk.sizeOf_spec]
  omega

/-- All nodes of the tree, root first, depth first. -/
def TreeNode.allNodes (t : TreeNode) : List TreeNode :=
  match t with
  | .mk n p f d m cs =>
    .mk n p f d m cs :: (cs.attach.map (fun c => TreeNode.allNodes c.1)).flatten
termination_by sizeOf t
decreasing_by
  have := List.sizeOf_lt_of_mem c.2
  simp only [TreeNode.mk.sizeOf_spec]
  omega

/-- Paths of all nodes of the tree. -/
def TreeNode.pathList (t : TreeNode) : List String :=
  t.allNodes.map TreeNode.path

/-- Number of nodes flagged `has_mole`. -/
def TreeNode.moleCount (t : TreeNode) : Nat :=
  t.allNodes.countP (fun n => n.has_mole)

/-- Induction over `TreeNode` with the hypothesis available on every child. -/
theorem TreeNode.ind (P : TreeNode → Prop)
    (mk : ∀ n p f d m cs, (∀ c ∈ cs, P c) → P (TreeNode.mk n p f d m cs)) :
    ∀ t, P t
  | .mk n p f d m cs => mk n p f d m cs (fun c _ => TreeNode.ind P mk c)

@[simp] theorem TreeNode.path_mk (n p : String) (f : Bool) (d : String) (m : Bool)
    (cs : List TreeNode) : (TreeNode.mk n p f d m cs).path = p := rfl

@[simp] theorem TreeNode.has_mole_mk (n p : String) (f : Bool) (d : String) (m : Bool)
    (cs : List TreeNode) : (TreeNode.mk n p f d m cs).has_mole = m := rfl

@[simp] theorem TreeNode.children_mk (n p : String) (f : Bool) (d : String) (m : Bool)
    (cs : List TreeNode) : (TreeNode.mk n p f d m cs).children = cs := rfl

theorem updateTreeDataToShowMole_mk (n p : String) (f : Bool) (d : String) (m : Bool)
    (cs : List TreeNode) (mp : String) :
    updateTreeDataToShowMole (.mk n p f d m cs) mp =
      if p = mp then .mk n p f d true cs
      else .mk n p f d m (cs.map (fun c => updateTreeDataToShowMole c mp)) := by
  rw [updateTreeDataToShowMole]
  simp [List.attach_map_val]

theorem removeMoleFromTree_mk (n p : String) (f : Bool) (d : String) (m : Bool)
    (cs : List TreeNode) :
    removeMoleFromTree (.mk n p f d m cs) =
      .mk n p f d false (cs.map removeMoleFromTree) := by
  rw [removeMoleFromTree]
  simp [List.attach_map_val]

theorem TreeNode.allNodes_mk (n p : String) (f : Bool) (d : String) (m : Bool)
    (cs : List TreeNode) :
    (TreeNode.mk n p f d m cs).allNodes =
      .mk n p f d m cs :: (cs.map TreeNode.allNodes).flatten := by
  rw [TreeNode.allNodes]
  simp [List.attach_map_val]

theorem TreeNode.pathList_mk (n p : String) (f : Bool) (d : String) (m : Bool)
    (cs : List TreeNode) :
    (TreeNode.mk n p f d m cs).pathList = p :: (cs.map TreeNode.pathList).flatten := by
  simp only [TreeNode.pathList, TreeNode.allNodes_mk, List.map_cons,
    List.map_flatten, List.map_map, TreeNode.path_mk]
  rfl

theorem TreeNode.moleCount_mk (n p : String) (f : Bool) (d : String) (m : Bool)
    (cs : List TreeNode) :
    (TreeNode.mk n p f d m cs).moleCount =
      (cs.map TreeNode.moleCount).sum + (if m then 1 else 0) := by
  simp only [TreeNode.moleCount, TreeNode.allNodes_mk, List.countP_cons,
    List.countP_flatten, List.map_map, TreeNode.has_mole_mk]
  rfl

theorem TreeNode.mem_allNodes_of_child {x c : TreeNode} {n p : String} {f : Bool}
    {d : String} {m : Bool} {cs : List TreeNode} (hc : c ∈ cs)
    (hx : x ∈ c.allNodes) : x ∈ (TreeNode.mk n p f d m cs).allNodes := by
  rw [TreeNode.allNodes_mk]
  exact List.mem_cons_of_mem _
    (List.mem_flatten.mpr ⟨c.allNodes, List.mem_map_of_mem _ hc, hx⟩)

/-- A tree with no mole flag anywhere has mole count zero. -/
theorem TreeNode.moleCount_eq_zero {t : TreeNode}
    (hall : ∀ x ∈ t.allNodes, x.has_mole = false) : t.moleCount = 0 := by
  refine List.countP_eq_zero.mpr ?_
  intro x hx
  simp [hall x hx]

/-- `removeMoleFromTree` clears `has_mole` on every node of the tree. -/
theorem removeMoleFromTree_flags (t : TreeNode) :
    ∀ x ∈ (removeMoleFromTree t).allNodes, x.has_mole = false := by
  induction t using TreeNode.ind with
  | mk n p f d m cs ih =>
    rw [removeMoleFromTree_mk]
    intro x hx
    rw [TreeNode.allNodes_mk, List.mem_cons] at hx
    rcases hx with hx | hx
    · simp [hx]
    · rw [List.mem_flatten] at hx
      obtain ⟨l, hl, hxl⟩ := hx
      rw [List.mem_map] at hl
      obtain ⟨c', hc', rfl⟩ := hl
      rw [List.mem_map] at hc'
      obtain ⟨c, hc, rfl⟩ := hc'
      exact ih c hc x hxl

/-- `removeMoleFromTree` preserves the list of paths. -/
theorem removeMoleFromTree_pathList (t : TreeNode) :
    (removeMoleFromTree t).pathList = t.pathList := by
  induction t using TreeNode.ind with
  | mk n p f d m cs ih =>
    rw [removeMoleFromTree_mk, TreeNode.pathList_mk, TreeNode.pathList_mk,
      List.map_map]
    congr 1
    congr 1
    exact List.map_congr_left fun c hc => by simp [Function.comp_def, ih c hc]

/-- On a tree whose flags are all clear, `updateTreeDataToShowMole` flags only
nodes whose path is the mole path. -/
theorem updateTreeDataToShowMole_flags (mp : String) (t : TreeNode)
    (hall : ∀ x ∈ t.allNodes, x.has_mole = false) :
    ∀ x ∈ (updateTreeDataToShowMole t mp).allNodes, x.has_mole = true → x.path = mp := by
  induction t using TreeNode.ind with
  | mk n p f d m cs ih =>
    rw [updateTreeDataToShowMole_mk]
    by_cases hp : p = mp
    · simp only [if_pos hp]
      intro x hx hmx
      rw [TreeNode.allNodes_mk, List.mem_cons] at hx
      rcases hx with hx | hx
      · simp [hx, hp]
      · rw [List.mem_flatten] at hx
        obtain ⟨l, hl, hxl⟩ := hx
        rw [List.mem_map] at hl
        obtain ⟨c, hc, rfl⟩ := hl
        have := hall x (TreeNode.mem_allNodes_of_child hc hxl)
        rw [this] at hmx
        exact absurd hmx (by simp)
    · simp only [if_neg hp]
      intro x hx hmx
      rw [TreeNode.allNodes_mk, List.mem_cons] at hx
      rcases hx with hx | hx
      · have hroot : (TreeNode.mk n p f d m cs) ∈ (TreeNode.mk n p f d m cs).allNodes := by
          rw [TreeNode.allNodes_mk]; exact List.mem_cons_self _ _
        have hmf := hall _ hroot
        rw [hx] at hmx
        simp only [TreeNode.has_mole_mk] at hmx hmf
        rw [hmf] at hmx
        exact absurd hmx (by simp)
      · rw [List.mem_flatten] at hx
        obtain ⟨l, hl, hxl⟩ := hx
        rw [List.mem_map] at hl
        obtain ⟨c', hc', rfl⟩ := hl
        rw [List.mem_map] at hc'
        obtain ⟨c, hc, rfl⟩ := hc'
        exact ih c hc (fun y hy => hall y (TreeNode.mem_allNodes_of_child hc hy)) x hxl hmx

/-- On a tree whose flags are all clear and whose paths contain `mp` at most
once, `updateTreeDataToShowMole` produces exactly as many flagged nodes as
there are occurrences of `mp`. -/
theorem updateTreeDataToShowMole_moleCount (mp : String) (t : TreeNode)
    (hall : ∀ x ∈ t.allNodes, x.has_mole = false)
    (hcnt : t.pathList.count mp ≤ 1) :
    (updateTreeDataToShowMole t mp).moleCount = t.pathList.count mp := by
  induction t using TreeNode.ind with
  | mk n p f d m cs ih =>
    have hchildall : ∀ c ∈ cs, ∀ x ∈ c.allNodes, x.has_mole = false :=
      fun c hc x hx => hall x (TreeNode.mem_allNodes_of_child hc hx)
    rw [updateTreeDataToShowMole_mk]
    rw [TreeNode.pathList_mk] at hcnt ⊢
    by_cases hp : p = mp
    · subst hp
      rw [if_pos rfl]
      rw [List.count_cons_self] at hcnt ⊢
      have hzero : (cs.map TreeNode.pathList).flatten.count p = 0 := by omega
      rw [hzero]
      rw [TreeNode.moleCount_mk, if_pos rfl]
      have hcz : ∀ c ∈ cs, c.moleCount = 0 := fun c hc =>
        TreeNode.moleCount_eq_zero (hchildall c hc)
      have hsum : (cs.map TreeNode.moleCount).sum = 0 := by
        rw [List.sum_eq_zero]
        intro x hx
        rw [List.mem_map] at hx
        obtain ⟨c, hc, rfl⟩ := hx
        exact hcz c hc
      omega
    · simp only [if_neg hp]
      rw [List.count_cons_of_ne (fun h => hp h.symm)] at hcnt ⊢
      rw [TreeNode.moleCount_mk]
      have hm : m = false := by
        have hroot : (TreeNode.mk n p f d m cs) ∈ (TreeNode.mk n p f d m cs).allNodes := by
          rw [TreeNode.allNodes_mk]; exact List.mem_cons_self _ _
        simpa using hall _ hroot
      rw [hm, if_neg (by simp)]
      rw [List.count_flatten, List.map_map] at hcnt ⊢
      rw [List.map_map]
      have hterm : ∀ c ∈ cs, c.pathList.count mp ≤ 1 := by
        intro c hc
        have hmem : c.pathList.count mp ∈ (cs.map fun c => c.pathList.count mp) := by
          rw [List.mem_map]
          exact ⟨c, hc, rfl⟩
        calc c.pathList.count mp ≤ (cs.map fun c => c.pathList.count mp).sum :=
              List.le_sum_of_mem (by simpa [Function.comp_def] using hmem)
          _ ≤ 1 := by simpa [Function.comp_def] using hcnt
      have : (cs.map (TreeNode.moleCount ∘ fun c => updateTreeDataToShowMole c mp)) =
          (cs.map fun c => c.pathList.count mp) := by
        refine List.map_congr_left fun c hc => ?_
        simpa [Function.comp_def] using ih c hc (hchildall c hc) (hterm c hc)
      rw [this]
      simp [Function.comp_def]

/-- A small sample tree: root `/` with children `/a` (carrying the mole) and
`/b`. -/
def exTree : TreeNode :=
  .mk "" "/" true "root" false
    [.mk "a" "/a" false "dir a" true [], .mk "b" "/b" false "dir b" false []]

theorem exTree_pathList : exTree.pathList = ["/", "/a", "/b"] := by
  simp [exTree, TreeNode.pathList_mk]

/-- **C2.** For every tree with unique node paths and every path `p` present in
the tree, running the clear-and-reassign sequence (`removeMoleFromTree` then
`updateTreeDataToShowMole` at `p`) yields a tree with exactly one `has_mole`
node, namely the node with path `p`; no node retains a stale flag. -/
theorem kill_roundtrip_single_mole (t : TreeNode) (p : String)
    (hnodup : t.pathList.Nodup) (hmem : p ∈ t.pathList) :
    (updateTreeDataToShowMole (removeMoleFromTree t) p).moleCount = 1 ∧
    ∀ x ∈ (updateTreeDataToShowMole (removeMoleFromTree t) p).allNodes,
      x.has_mole = true → x.path = p := by
  have hflags := removeMoleFromTree_flags t
  have hpl := removeMoleFromTree_pathList t
  have hcount1 : t.pathList.count p = 1 := List.count_eq_one_of_mem hnodup hmem
  refine ⟨?_, updateTreeDataToShowMole_flags p _ hflags⟩
  rw [updateTreeDataToShowMole_moleCount p _ hflags (by rw [hpl, hcount1]), hpl,
    hcount1]

/-- Witness for C2 on the sample tree, moving the mole to `/b`. -/
theorem kill_roundtrip_single_mole_witness :
    exTree.pathList.Nodup ∧ "/b" ∈ exTree.pathList ∧
    ((updateTreeDataToShowMole (removeMoleFromTree exTree) "/b").moleCount = 1 ∧
      ∀ x ∈ (updateTreeDataToShowMole (removeMoleFromTree exTree) "/b").allNodes,
        x.has_mole = true → x.path = "/b") :=
  ⟨by rw [exTree_pathList]; decide, by rw [exTree_pathList]; decide,
    kill_roundtrip_single_mole exTree "/b" (by rw [exTree_pathList]; decide)
      (by rw [exTree_pathList]; decide)⟩

/-- Erasing all mole flags after `updateTreeDataToShowMole` gives the same tree
as erasing them before: the update changes nothing but mole flags. -/
theorem removeMoleFromTree_updateTreeDataToShowMole (mp : String) (t : TreeNode) :
    removeMoleFromTree (updateTreeDataToShowMole t mp) = removeMoleFromTree t := by
  induction t using TreeNode.ind with
  | mk n p f d m cs ih =>
    rw [updateTreeDataToShowMole_mk]
    by_cases hp : p = mp
    · rw [if_pos hp, removeMoleFromTree_mk, removeMoleFromTree_mk]
    · rw [if_neg hp, removeMoleFromTree_mk, removeMoleFromTree_mk, List.map_map]
      congr 1
      exact List.map_congr_left fun c hc => by
        simpa [Function.comp_def] using ih c hc

/-- Node-by-node comparison of a tree with its `updateTreeDataToShowMole`
image: flags are never cleared, and a newly set flag only appears on a node
whose path is the mole path. -/
theorem updateTreeDataToShowMole_forall₂ (mp : String) (t : TreeNode) :
    List.Forall₂ (fun x y => (x.has_mole = true → y.has_mole = true) ∧
        (y.has_mole = true → x.has_mole = true ∨ y.path = mp))
      t.allNodes (updateTreeDataToShowMole t mp).allNodes := by
  induction t using TreeNode.ind with
  | mk n p f d m cs ih =>
    rw [updateTreeDataToShowMole_mk]
    by_cases hp : p = mp
    · rw [if_pos hp, TreeNode.allNodes_mk, TreeNode.allNodes_mk]
      refine List.Forall₂.cons ⟨fun _ => rfl, fun _ => Or.inr (by simp [hp])⟩ ?_
      exact List.forall₂_same.mpr fun x _ => ⟨id, Or.inl⟩
    · rw [if_neg hp, TreeNode.allNodes_mk, TreeNode.allNodes_mk]
      refine List.Forall₂.cons ⟨id, Or.inl⟩ ?_
      rw [List.map_map]
      refine List.rel_flatten ?_
      rw [List.forall₂_map_left_iff, List.forall₂_map_right_iff]
      exact List.forall₂_same.mpr fun c hc => by
        simpa [Function.comp_def] using ih c hc

/-- **C10.** `updateTreeDataToShowMole` only ever sets `has_mole` on nodes whose
path equals the mole path, never clears an existing flag, and leaves every
node's name, path, `is_fhs`, description and child ordering unchanged (erasing
all flags commutes with it); applied without a prior `removeMoleFromTree` it
can leave two distinct nodes flagged, as on the sample tree. -/
theorem update_mole_frame_conditions :
    (∀ (t : TreeNode) (mp : String),
      removeMoleFromTree (updateTreeDataToShowMole t mp) = removeMoleFromTree t ∧
      List.Forall₂ (fun x y => (x.has_mole = true → y.has_mole = true) ∧
          (y.has_mole = true → x.has_mole = true ∨ y.path = mp))
        t.allNodes (updateTreeDataToShowMole t mp).allNodes) ∧
    (updateTreeDataToShowMole exTree "/b").moleCount = 2 := by
  refine ⟨fun t mp => ⟨removeMoleFromTree_updateTreeDataToShowMole mp t,
    updateTreeDataToShowMole_forall₂ mp t⟩, ?_⟩
  simp +decide [exTree, updateTreeDataToShowMole_mk, TreeNode.moleCount_mk]

/-! ## Command execution pipeline
(src/frontend/src/hooks/useCommandExecution.ts, response shapes from
src/lib/api.ts) -/

/-- `TimerWarning` from src/lib/api.ts. -/
structure TimerWarning where
  level : String
  message : String
deriving DecidableEq

/-- `MoleDirection` from src/lib/api.ts. -/
structure MoleDirection where
  direction : String
  angle : Int
deriving DecidableEq

/-- `CommandResponse` from src/lib/api.ts (fields the hook reads; optional
TypeScript fields become `Option`). -/
structure CommandResponse where
  command : String
  success : Bool
  output : String
  current_path : String
  game_won : Option Bool
  mole_spawned : Option Bool
  mole_direction : Option MoleDirection
  score : Option Int
  moles_killed : Option Int
  new_mole_location : Option String
  timer_warnings : Option (List TimerWarning)
  timer_reason : Option String
deriving DecidableEq

/-- `CommandHistoryEntry` from useCommandExecution.ts. -/
structure CommandHistoryEntry where
  command : String
  output : String
  success : Bool
deriving DecidableEq

/-- `CommandExecutionState` from useCommandExecution.ts. -/
structure CommandExecutionState where
  executing : Bool
  commandHistory : List CommandHistoryEntry
deriving DecidableEq

/-- The callbacks `executeCommand` can invoke, in invocation order. -/
inductive CallbackEvent where
  | locationChange (newPath : String)
  | moleKilled (response : CommandResponse)
  | treeUpdate
deriving DecidableEq

/-- JavaScript truthiness of an optional boolean field. -/
def truthyOptBool : Option Bool → Bool
  | some b => b
  | none => false

/-- JavaScript truthiness of an optional string field. -/
def truthyOptStr : Option String → Bool
  | some s => s ≠ ""
  | none => false

/-- JavaScript falsiness of a `number | null` value (`null` and `0` are
falsy). -/
def jsFalsyNum : Option Int → Bool
  | none => true
  | some n => n == 0

/-- `sub` occurs as a contiguous run inside `s` (JS `String.includes`). -/
def jsIncludes (s sub : String) : Bool :=
  (List.range (s.toList.length + 1)).any fun i => sub.toList.isPrefixOf (s.toList.drop i)

/-- JS `String.prototype.trim`: strip whitespace from both ends. -/
def jsTrim (s : String) : String :=
  String.mk
    (((s.data.dropWhile Char.isWhitespace).reverse.dropWhile Char.isWhitespace).reverse)

/-- The guard at the top of `executeCommand`:
`if (!gameTreeId || !cmd.trim() || state.executing) return`. -/
def rejectsCommand (gameTreeId : Option Int) (cmd : String)
    (st : CommandExecutionState) : Bool :=
  jsFalsyNum gameTreeId || jsTrim cmd == "" || st.executing

/-- Output assembly: timer-warning lines are prepended above the primary
output text, separated by newlines. -/
def buildFullOutput (resp : CommandResponse) : String :=
  match resp.timer_warnings with
  | some ws =>
    if ws.length > 0 then
      String.intercalate "\n" (ws.map fun w => "⚠️ " ++ w.level ++ ": " ++ w.message)
        ++ (if resp.output ≠ "" then "\n" ++ resp.output else "")
    else resp.output
  | none => resp.output

/-- The in-place mutation of `response.output` performed in the
`mole_spawned` branch before `onMoleKilled(response)` is invoked. -/
def moleSpawnedResponse (resp : CommandResponse) : CommandResponse :=
  if truthyOptStr resp.timer_reason ∧ ¬ jsIncludes resp.output "New mole detected" then
    { resp with
        output := resp.output ++ "\nNew mole detected " ++ resp.timer_reason.getD "" ++ "!" }
  else resp

/-- The fixed message appended to history when the network call throws. -/
def networkErrorMessage : String :=
  "Error: Failed to execute command. Check your connection."

/-- Observable outcome of one `executeCommand` call: final hook state, the
callbacks invoked (in order), the returned value, and whether a network
request was issued. -/
structure ExecOutcome where
  state : CommandExecutionState
  events : List CallbackEvent
  ret : Option CommandResponse
  requested : Bool
deriving DecidableEq

/-- `executeCommand` from useCommandExecution.ts as a function of the guard
inputs, the prior hook state and the network call's outcome.  The `finally`
block is reflected in `executing := false` on both the success and the
failure path. -/
def executeCommand (gameTreeId : Option Int) (_sessionId : Option Int)
    (cmd : String) (st : CommandExecutionState)
    (net : Except Unit CommandResponse) : ExecOutcome :=
  if rejectsCommand gameTreeId cmd st then ⟨st, [], none, false⟩
  else
    match net with
    | .error _ =>
      ⟨⟨false, st.commandHistory ++ [⟨cmd, networkErrorMessage, false⟩]⟩, [], none, true⟩
    | .ok resp =>
      let hist := st.commandHistory ++ [⟨cmd, buildFullOutput resp, resp.success⟩]
      let resp' := if truthyOptBool resp.mole_spawned then moleSpawnedResponse resp else resp
      let events :=
        (if resp.current_path ≠ "" then [CallbackEvent.locationChange resp.current_path]
          else [])
        ++ (if truthyOptBool resp.mole_spawned then [CallbackEvent.moleKilled resp'] else [])
        ++ (if truthyOptBool resp.game_won ∧ ¬ truthyOptBool resp.mole_spawned then
              [CallbackEvent.treeUpdate] else [])
      ⟨⟨false, hist⟩, events, some resp', true⟩

/-- **C3.** If the network call throws, exactly one history entry is appended,
with the fixed generic message and `success = false`; no callback fires, the
call returns `null`, and the in-flight flag is `false` after completion. -/
theorem network_failure_outcome (gameTreeId sessionId : Option Int)
    (cmd : String) (st : CommandExecutionState)
    (hrun : rejectsCommand gameTreeId cmd st = false) :
    executeCommand gameTreeId sessionId cmd st (.error ()) =
      ⟨⟨false, st.commandHistory ++ [⟨cmd, networkErrorMessage, false⟩]⟩,
        [], none, true⟩ := by
  simp [executeCommand, hrun]

/-- Witness for C3: a concrete failing call appends exactly the error entry. -/
theorem network_failure_outcome_witness :
    rejectsCommand (some 1) "ls" ⟨false, []⟩ = false ∧
    executeCommand (some 1) (some 2) "ls" ⟨false, []⟩ (.error ()) =
      ⟨⟨false, [⟨"ls", networkErrorMessage, false⟩]⟩, [], none, true⟩ :=
  ⟨by decide, by
    rw [network_failure_outcome (some 1) (some 2) "ls" ⟨false, []⟩ (by decide)]
    rfl⟩

/-- **C4.** `executeCommand` is a no-op — no request, no history entry, no
state change, no callback — whenever the command is blank/whitespace-only,
there is no active game (`gameTreeId` null), or a prior command is still in
flight; in particular a call made while `executing = true` never issues a
second request. -/
theorem reject_noop (gameTreeId sessionId : Option Int) (cmd : String)
    (st : CommandExecutionState) (net : Except Unit CommandResponse)
    (h : gameTreeId = none ∨ jsTrim cmd = "" ∨ st.executing = true) :
    executeCommand gameTreeId sessionId cmd st net = ⟨st, [], none, false⟩ := by
  have hrej : rejectsCommand gameTreeId cmd st = true := by
    rcases h with h | h | h <;> simp [rejectsCommand, jsFalsyNum, h]
  simp [executeCommand, hrej]

/-- Witness for C4: a second command issued while one is in flight is a
no-op. -/
theorem reject_noop_witness :
    ((⟨true, []⟩ : CommandExecutionState).executing = true) ∧
    executeCommand (some 1) (some 2) "pwd" ⟨true, []⟩ (.error ()) =
      ⟨⟨true, []⟩, [], none, false⟩ :=
  ⟨rfl, reject_noop (some 1) (some 2) "pwd" ⟨true, []⟩ (.error ())
    (Or.inr (Or.inr rfl))⟩

/-- Sample successful response reporting the path the player already occupies
(used to refute the "only when the path differs" reading of C5). -/
def samplePwdResponse : CommandResponse :=
  { command := "pwd", success := true, output := "/home",
    current_path := "/home", game_won := none, mole_spawned := some true,
    mole_direction := none, score := none, moles_killed := none,
    new_mole_location := some "/var", timer_warnings := none,
    timer_reason := none }

/-- The player's locally stored location in the C5 counterexample scenario. -/
def samplePlayerLocation : String := "/home"

/-- **C5 counterexample.** The hook applies the player-location mutation
whenever the response carries a non-empty `current_path`, with no comparison
against the locally stored location: here the reported path equals the stored
location, yet `onLocationChange` is still invoked. -/
theorem location_change_unconditional_counterexample :
    samplePwdResponse.current_path = samplePlayerLocation ∧
    CallbackEvent.locationChange samplePlayerLocation ∈
      (executeCommand (some 1) (some 2) "pwd" ⟨false, []⟩
        (.ok samplePwdResponse)).events := by
  constructor
  · rfl
  · decide

/-- **C5 (amended).** On a successful response the location mutation is
applied exactly when the reported `current_path` is non-empty — regardless of
the locally stored location — and, when applied, it is the first callback,
preceding every mole-lifecycle mutation triggered by the same response. -/
theorem location_change_first (gameTreeId sessionId : Option Int) (cmd : String)
    (st : CommandExecutionState) (resp : CommandResponse)
    (hrun : rejectsCommand gameTreeId cmd st = false) :
    (CallbackEvent.locationChange resp.current_path ∈
        (executeCommand gameTreeId sessionId cmd st (.ok resp)).events ↔
      resp.current_path ≠ "") ∧
    (resp.current_path ≠ "" →
      (executeCommand gameTreeId sessionId cmd st (.ok resp)).events.head? =
        some (CallbackEvent.locationChange resp.current_path)) := by
  simp only [executeCommand, hrun, Bool.false_eq_true, if_false]
  constructor
  · by_cases hcp : resp.current_path = ""
    · simp [hcp]
    · simp [hcp]
  · intro hcp
    simp [hcp]

/-- Witness for the amended C5 on a concrete response. -/
theorem location_change_first_witness :
    rejectsCommand (some 1) "pwd" ⟨false, []⟩ = false ∧
    samplePwdResponse.current_path ≠ "" ∧
    (executeCommand (some 1) (some 2) "pwd" ⟨false, []⟩
        (.ok samplePwdResponse)).events.head? =
      some (CallbackEvent.locationChange samplePwdResponse.current_path) :=
  ⟨by decide, by decide,
    (location_change_first (some 1) (some 2) "pwd" ⟨false, []⟩ samplePwdResponse
      (by decide)).2 (by decide)⟩

/-! ## Direction indicator scheduling
(src `useGameState.ts`, `setMoleDirection`: sets the direction and, when it is
non-null, schedules `setTimeout(clear, 5000)`; no `clearTimeout` exists.) -/

/-- `GameStats` from useGameState.ts. -/
structure GameStats where
  score : Int
  molesKilled : Int
  moleDirection : Option MoleDirection
  moleKilled : Bool
deriving DecidableEq

/-- Game stats together with the absolute fire times of the deferred clears
scheduled via `setTimeout(..., 5000)`. -/
structure StatsClock where
  stats : GameStats
  pendingClears : List Nat
deriving DecidableEq

/-- `setMoleDirection` at wall-clock time `now`: store the direction and, when
it is non-null, schedule an unconditional clear for `now + 5000`.  The
previously scheduled clears are left untouched (the source has no
`clearTimeout`). -/
def setMoleDirectionModel (now : Nat) (direction : Option MoleDirection)
    (s : StatsClock) : StatsClock :=
  { stats := { s.stats with moleDirection := direction },
    pendingClears :=
      if direction.isSome then s.pendingClears ++ [now + 5000] else s.pendingClears }

/-- A scheduled timeout firing at time `f`: run the stored callback
`prev => ({ ...prev, moleDirection: null })` and retire the timer. -/
def fireClear (f : Nat) (s : StatsClock) : StatsClock :=
  if f ∈ s.pendingClears then
    { stats := { s.stats with moleDirection := none },
      pendingClears := s.pendingClears.erase f }
  else s

/-- **C6 counterexample.** Set a direction at t=0 and a second one at t=3000;
the first pending timer is still scheduled (nothing was reset) and when it
fires at t=5000 it clears the newer direction after only 2000 ms of
visibility, refuting "the newer direction remains visible for a full 5
seconds". -/
theorem direction_timer_not_reset_counterexample :
    (setMoleDirectionModel 3000 (some ⟨"south", 180⟩)
        (setMoleDirectionModel 0 (some ⟨"north", 0⟩)
          ⟨⟨0, 0, none, false⟩, []⟩)).pendingClears = [5000, 8000] ∧
    (fireClear 5000
        (setMoleDirectionModel 3000 (some ⟨"south", 180⟩)
          (setMoleDirectionModel 0 (some ⟨"north", 0⟩)
            ⟨⟨0, 0, none, false⟩, []⟩))).stats.moleDirection = none ∧
    5000 < 3000 + 5000 := by
  refine ⟨rfl, ?_, by decide⟩
  decide

/-- **C6 (amended).** Every non-null direction schedules a clear exactly
5 seconds later and cancels nothing; a lone direction is indeed cleared when
its timer fires 5 seconds later; but a second direction arriving before the
first window elapses is cleared early, at the *first* direction's expiry,
because the first timer is never reset. -/
theorem direction_timer_semantics :
    (∀ (now : Nat) (d : MoleDirection) (s : StatsClock),
      (setMoleDirectionModel now (some d) s).stats.moleDirection = some d ∧
      (setMoleDirectionModel now (some d) s).pendingClears =
        s.pendingClears ++ [now + 5000]) ∧
    (∀ (now : Nat) (d : MoleDirection) (g : GameStats),
      (fireClear (now + 5000)
        (setMoleDirectionModel now (some d) ⟨g, []⟩)).stats.moleDirection = none) ∧
    (∀ (t₁ t₂ : Nat) (d₁ d₂ : MoleDirection) (g : GameStats), t₂ < t₁ + 5000 →
      (fireClear (t₁ + 5000)
        (setMoleDirectionModel t₂ (some d₂)
          (setMoleDirectionModel t₁ (some d₁) ⟨g, []⟩))).stats.moleDirection = none) := by
  refine ⟨fun now d s => ⟨rfl, by simp [setMoleDirectionModel]⟩, ?_, ?_⟩
  · intro now d g
    simp [setMoleDirectionModel, fireClear]
  · intro t₁ t₂ d₁ d₂ g _
    simp [setMoleDirectionModel, fireClear]

/-- Witness for the amended C6 at concrete times and directions. -/
theorem direction_timer_semantics_witness :
    (3000 : Nat) < 0 + 5000 ∧
    (fireClear (0 + 5000)
      (setMoleDirectionModel 3000 (some ⟨"south", 180⟩)
        (setMoleDirectionModel 0 (some ⟨"north", 0⟩)
          ⟨⟨0, 0, none, false⟩, []⟩))).stats.moleDirection = none :=
  ⟨by decide,
    direction_timer_semantics.2.2 0 3000 ⟨"north", 0⟩ ⟨"south", 180⟩
      ⟨0, 0, none, false⟩ (by decide)⟩

/-! ## Layout separation
(src/components/TreeVisualizer.tsx, the `separation` callback of the d3 tree
layout; identical in part_008/part_009.) -/

/-- The fields of a d3 hierarchy node read by the separation callback.
`parentId` models reference identity of `.parent` (`none` = null);
`parentChildCount` is `.parent.children?.length || 0` of the node's parent;
`childCount` is `.children` length, `0` encoding a leaf (`!a.children ||
a.children.length === 0`). -/
structure SepNode where
  parentId : Option Nat
  parentChildCount : Nat
  childCount : Nat
  depth : Nat
deriving DecidableEq

/-- `a.parent ? (a.parent.children?.length || 0) : 0`. -/
def sepParentChildCount (a : SepNode) : Nat :=
  match a.parentId with
  | none => 0
  | some _ => a.parentChildCount

/-- The separation callback of the tree layout. -/
def separation (a b : SepNode) : ℚ :=
  if a.parentId = b.parentId ∧ sepParentChildCount a > 3 then
    if a.childCount = 0 ∧ b.childCount = 0 then 5/2 else 2
  else if a.depth = 0 ∨ b.depth = 0 then 4
  else if a.depth = 1 ∨ b.depth = 1 then 3
  else if a.childCount = 0 ∧ b.childCount = 0 then 3/2
  else if a.parentId = b.parentId then 3/2 else 2

/-- **C7 counterexample.** Two depth-1 sibling leaves whose shared parent (the
root) has 4 children get separation 2.5, not a value in [3, 4]: the
crowded-parent branch runs before the depth rule. -/
theorem separation_depth1_counterexample :
    separation ⟨some 0, 4, 0, 1⟩ ⟨some 0, 4, 0, 1⟩ = 5/2 ∧
    ¬ (3 ≤ separation ⟨some 0, 4, 0, 1⟩ ⟨some 0, 4, 0, 1⟩ ∧
        separation ⟨some 0, 4, 0, 1⟩ ⟨some 0, 4, 0, 1⟩ ≤ 4) := by
  constructor
  · rfl
  · rw [show separation ⟨some 0, 4, 0, 1⟩ ⟨some 0, 4, 0, 1⟩ = 5/2 from rfl]
    norm_num

/-- **C7 (amended).** For sibling pairs the crowded-parent branch takes
precedence: a shared parent with more than 3 children yields 2.5 when both
nodes are leaves and 2 otherwise, even at depth 0 or 1; only otherwise do
depth-0 pairs get 4 and depth-1 pairs 3 (within the claimed [3, 4]); all
remaining sibling pairs get 1.5. -/
theorem separation_sibling_cases (a b : SepNode)
    (hsib : a.parentId = b.parentId) :
    (sepParentChildCount a > 3 →
      separation a b = if a.childCount = 0 ∧ b.childCount = 0 then 5/2 else 2) ∧
    (sepParentChildCount a ≤ 3 →
      ((a.depth = 0 ∨ b.depth = 0) → separation a b = 4) ∧
      (¬ (a.depth = 0 ∨ b.depth = 0) → (a.depth = 1 ∨ b.depth = 1) →
        separation a b = 3) ∧
      (2 ≤ a.depth → 2 ≤ b.depth → separation a b = 3/2)) := by
  constructor
  · intro hbig
    rw [separation, if_pos ⟨hsib, hbig⟩]
  · intro hsmall
    have hnot : ¬ (a.parentId = b.parentId ∧ sepParentChildCount a > 3) := by
      rintro ⟨-, hgt⟩; omega
    refine ⟨?_, ?_, ?_⟩
    · intro hd0
      rw [separation, if_neg hnot, if_pos hd0]
    · intro hd0 hd1
      rw [separation, if_neg hnot, if_neg hd0, if_pos hd1]
    · intro ha hb
      have hd0 : ¬ (a.depth = 0 ∨ b.depth = 0) := by omega
      have hd1 : ¬ (a.depth = 1 ∨ b.depth = 1) := by omega
      rw [separation, if_neg hnot, if_neg hd0, if_neg hd1]
      by_cases hleaf : a.childCount = 0 ∧ b.childCount = 0
      · rw [if_pos hleaf]
      · rw [if_neg hleaf, if_pos hsib]

/-- Witness for the amended C7: two depth-2 sibling leaves under a parent with
3 children get separation 1.5. -/
theorem separation_sibling_cases_witness :
    (⟨some 7, 3, 0, 2⟩ : SepNode).parentId = (⟨some 7, 3, 0, 2⟩ : SepNode).parentId ∧
    sepParentChildCount ⟨some 7, 3, 0, 2⟩ ≤ 3 ∧
    separation ⟨some 7, 3, 0, 2⟩ ⟨some 7, 3, 0, 2⟩ = 3/2 :=
  ⟨rfl, by decide,
    ((separation_sibling_cases ⟨some 7, 3, 0, 2⟩ ⟨some 7, 3, 0, 2⟩ rfl).2
      (by decide)).2.2 (by decide) (by decide)⟩

/-! ## Camera choreography
(src/components/TreeVisualizer.tsx variants; `getZoomTransform` is identical
in all of them, the intro with the conditional mole leg is the part_008
variant, the idle/navigation snap constants are from part_009.) -/

/-- `{translateX, translateY, scale}` produced by
`d3.zoomIdentity.translate(tx, ty).scale(k)`. -/
structure ZoomTransform where
  translateX : ℚ
  translateY : ℚ
  scale : ℚ
deriving DecidableEq

/-- The positioned-node coordinates read by `getZoomTransform`. -/
structure PointNode where
  x : ℚ
  y : ℚ
deriving DecidableEq

/-- ViewBox dimensions and margins of one render pass. -/
structure LayoutFrame where
  width : ℚ
  height : ℚ
  marginLeft : ℚ
  marginTop : ℚ
  marginRight : ℚ
  marginBottom : ℚ
deriving DecidableEq

/-- `getZoomTransform(node, scale, offsetX, offsetY)`. -/
def getZoomTransform (fr : LayoutFrame) (node : PointNode)
    (scale offsetX offsetY : ℚ) : ZoomTransform :=
  { translateX := fr.width / 2 - (node.x + fr.marginLeft) * scale + fr.width * offsetX,
    translateY := fr.height / 2 - (node.y + fr.marginTop) * scale + fr.height * offsetY,
    scale := scale }

/-- Coordinate extents of all positioned nodes (`d3.extent` results). -/
structure NodeExtent where
  xmin : ℚ
  xmax : ℚ
  ymin : ℚ
  ymax : ℚ
deriving DecidableEq

/-- `fullTreeScale = Math.min(scaleX, scaleY, 0.8)` with the 200-pixel tree
padding. -/
def fullTreeScale (fr : LayoutFrame) (ext : NodeExtent) : ℚ :=
  min (min ((fr.width - fr.marginLeft - fr.marginRight) / (ext.xmax - ext.xmin + 200))
        ((fr.height - fr.marginTop - fr.marginBottom) / (ext.ymax - ext.ymin + 200)))
    (4/5)

/-- Midpoint of the node extents, the target of the full-tree framing. -/
def treeCenter (ext : NodeExtent) : PointNode :=
  ⟨(ext.xmin + ext.xmax) / 2, (ext.ymin + ext.ymax) / 2⟩

/-- One camera action: an instantaneous `zoom.transform` call or an eased
transition of the given duration towards the given transform. -/
inductive CameraStep where
  | instant (t : ZoomTransform)
  | animated (duration : Nat) (t : ZoomTransform)
deriving DecidableEq

/-- The transform sequence applied by the part_008 TreeVisualizer effect:
`if (playIntro && playerNode) { [mole leg if moleNode] } else if (playerNode
&& !isAnimatingRef.current) { navigation / instant }`; when `playerNode` is
absent nothing runs at all. -/
def cameraChoreography (playIntro isNavigation isAnimating : Bool)
    (fr : LayoutFrame) (rootNode : PointNode) (ext : NodeExtent)
    (playerNode : Option PointNode) (moleNode : Option PointNode) :
    List CameraStep :=
  match playerNode with
  | some p =>
    if playIntro then
      let rootT := getZoomTransform fr rootNode (5/2) 0 0
      let fullT := getZoomTransform fr (treeCenter ext) (fullTreeScale fr ext) 0 0
      let playerT := getZoomTransform fr p (5/2) (3/20) (1/5)
      match moleNode with
      | some mn =>
        let moleT := getZoomTransform fr mn (5/2) 0 0
        let partialT := getZoomTransform fr (treeCenter ext) (3/2) 0 0
        [.instant rootT, .animated 1000 rootT, .animated 2000 fullT,
          .animated 1000 fullT, .animated 1500 moleT, .animated 800 moleT,
          .animated 1200 partialT, .animated 1500 playerT]
      | none =>
        [.instant rootT, .animated 1000 rootT, .animated 2000 fullT,
          .animated 1000 fullT, .animated 1500 playerT]
    else if isAnimating then []
    else
      let playerT := getZoomTransform fr p (5/2) (3/20) (1/5)
      if isNavigation then [.animated 750 playerT] else [.instant playerT]
  | none => []

/-- A sample layout frame for the camera counterexamples and witnesses. -/
def sampleFrame : LayoutFrame := ⟨2000, 1200, 150, 100, 150, 100⟩

/-- Sample node extents. -/
def sampleExtent : NodeExtent := ⟨0, 1700, 0, 1000⟩

/-- **C8 counterexample.** With the player anchor node absent from the
rendered tree (intro requested, mole present), the choreographer applies no
transform at all — the step list is empty, not a root-framing fallback. -/
theorem camera_no_fallback_counterexample :
    cameraChoreography true false false sampleFrame ⟨850, 0⟩ sampleExtent
      none (some ⟨400, 600⟩) = [] ∧
    cameraChoreography true false false sampleFrame ⟨850, 0⟩ sampleExtent
      none (some ⟨400, 600⟩) ≠
      [CameraStep.instant (getZoomTransform sampleFrame ⟨850, 0⟩ (5/2) 0 0)] := by
  exact ⟨rfl, by simp [cameraChoreography]⟩

/-- **C8 (amended).** The choreographer never throws, but when the player
anchor is absent it applies no transform at all (every branch is skipped);
only the *mole* anchor has graceful degradation: with the player present and
the mole absent, the intro skips the mole leg and still runs
root-framing → full-tree → player. -/
theorem camera_missing_anchor_behaviour (playIntro isNavigation isAnimating : Bool)
    (fr : LayoutFrame) (rootNode : PointNode) (ext : NodeExtent)
    (moleNode : Option PointNode) (p : PointNode) :
    (cameraChoreography playIntro isNavigation isAnimating fr rootNode ext
        none moleNode = []) ∧
    (playIntro = true →
      cameraChoreography playIntro isNavigation isAnimating fr rootNode ext
          (some p) none =
        [.instant (getZoomTransform fr rootNode (5/2) 0 0),
          .animated 1000 (getZoomTransform fr rootNode (5/2) 0 0),
          .animated 2000 (getZoomTransform fr (treeCenter ext) (fullTreeScale fr ext) 0 0),
          .animated 1000 (getZoomTransform fr (treeCenter ext) (fullTreeScale fr ext) 0 0),
          .animated 1500 (getZoomTransform fr p (5/2) (3/20) (1/5))]) := by
  constructor
  · rfl
  · rintro rfl
    simp [cameraChoreography]

/-- Witness for the amended C8: a concrete intro without a mole node plays the
five-step sequence ending on the player. -/
theorem camera_missing_anchor_behaviour_witness :
    (true = true) ∧
    cameraChoreography true false false sampleFrame ⟨850, 0⟩ sampleExtent
        (some ⟨400, 600⟩) none =
      [.instant (getZoomTransform sampleFrame ⟨850, 0⟩ (5/2) 0 0),
        .animated 1000 (getZoomTransform sampleFrame ⟨850, 0⟩ (5/2) 0 0),
        .animated 2000 (getZoomTransform sampleFrame (treeCenter sampleExtent)
          (fullTreeScale sampleFrame sampleExtent) 0 0),
        .animated 1000 (getZoomTransform sampleFrame (treeCenter sampleExtent)
          (fullTreeScale sampleFrame sampleExtent) 0 0),
        .animated 1500 (getZoomTransform sampleFrame ⟨400, 600⟩ (5/2) (3/20) (1/5))] :=
  ⟨rfl, (camera_missing_anchor_behaviour true false false sampleFrame ⟨850, 0⟩
    sampleExtent none ⟨400, 600⟩).2 rfl⟩

/-- The part_009 idle snap: outside the intro, without a navigation
transition, the camera is set to the player-centered transform at scale 3
with the 0.15/0.2 nudge offsets, regardless of the current camera
transform. -/
def applyIdleFraming (fr : LayoutFrame) (playerNode : PointNode)
    (_currentCamera : ZoomTransform) : ZoomTransform :=
  getZoomTransform fr playerNode 3 (3/20) (1/5)

/-- **C9.** Idle framing is idempotent: for a fixed layout and player node,
applying the idle snap twice in a row yields the identical transform, and the
resulting transform does not depend on the camera state it starts from. -/
theorem idle_framing_idempotent (fr : LayoutFrame) (p : PointNode)
    (cam cam' : ZoomTransform) :
    applyIdleFraming fr p (applyIdleFraming fr p cam) = applyIdleFraming fr p cam ∧
    applyIdleFraming fr p cam = applyIdleFraming fr p cam' :=
  ⟨rfl, rfl⟩

/-! ## Adjacency resolver
(`isAdjacentNode` in the TreeVisualizer variants, part_008/part_009; strings
are modelled as `List Char`, the JS string operations character by
character.) -/

/-- JS `lastIndexOf`: the index of the last occurrence of `ch` in `s`, `-1`
when absent. -/
def jsLastIndexOf : List Char → Char → Int
  | [], _ => -1
  | a :: rest, ch =>
    let r := jsLastIndexOf rest ch
    if r ≥ 0 then r + 1 else if a = ch then 0 else -1

/-- JS `substring(0, e)`: a negative `e` clamps to `0`, an `e` past the end
clamps to the length. -/
def jsTake (s : List Char) (e : Int) : List Char := s.take e.toNat

/-- `currentPath.substring(0, currentPath.lastIndexOf('/')) || '/'` — the
empty string is falsy, so it falls back to `'/'`. -/
def jsParentPath (c : List Char) : List Char :=
  let p := jsTake c (jsLastIndexOf c '/')
  if p = [] then ['/'] else p

/-- JS `split(sep)`: `''.split` gives `['']`, separators delimit (possibly
empty) groups. -/
def jsSplit (sep : Char) : List Char → List (List Char)
  | [] => [[]]
  | a :: rest =>
    if a = sep then [] :: jsSplit sep rest
    else
      match jsSplit sep rest with
      | [] => [[a]]
      | g :: gs => (a :: g) :: gs

/-- `isAdjacentNode(nodePath, currentPath)` from the TreeVisualizer variants:
parent check (skipped at root), then root-child check (exactly one non-empty
segment) or non-root child check (starts with `currentPath + '/'` and no
further `'/'` in the remainder). -/
def isAdjacentNode (nodePath currentPath : List Char) : Bool :=
  if currentPath ≠ ['/'] ∧ nodePath = jsParentPath currentPath then true
  else if currentPath = ['/'] then
    ((jsSplit '/' nodePath).filter (· ≠ [])).length == 1
  else
    (currentPath ++ ['/']).isPrefixOf nodePath &&
      !((nodePath.drop (currentPath.length + 1)).contains '/')

/-- A '/'-delimited absolute path assembled from its segments; no segments
means the root `"/"`. -/
def pathOfSegs (segs : List (List Char)) : List Char :=
  if segs = [] then ['/'] else (segs.map (fun s => '/' :: s)).flatten

/-- Interior of `pathOfSegs` for non-empty segment lists. -/
def flatSegs (segs : List (List Char)) : List Char :=
  (segs.map (fun s => '/' :: s)).flatten

/-- Well-formed segments: non-empty and free of the separator. -/
abbrev ValidSegs (l : List (List Char)) : Prop := ∀ s ∈ l, s ≠ [] ∧ '/' ∉ s

theorem flatSegs_cons (s : List Char) (rest : List (List Char)) :
    flatSegs (s :: rest) = '/' :: (s ++ flatSegs rest) := by
  simp [flatSegs]

theorem flatSegs_append (xs ys : List (List Char)) :
    flatSegs (xs ++ ys) = flatSegs xs ++ flatSegs ys := by
  simp [flatSegs]

theorem flatSegs_eq_nil_iff (xs : List (List Char)) : flatSegs xs = [] ↔ xs = [] := by
  cases xs <;> simp [flatSegs, flatSegs_cons]

theorem pathOfSegs_nil : pathOfSegs [] = ['/'] := rfl

theorem pathOfSegs_of_ne_nil {segs : List (List Char)} (h : segs ≠ []) :
    pathOfSegs segs = flatSegs segs := by
  simp [pathOfSegs, h, flatSegs]

theorem pathOfSegs_ne_root {cs : List (List Char)} (hv : ValidSegs cs)
    (hne : cs ≠ []) : pathOfSegs cs ≠ ['/'] := by
  cases cs with
  | nil => exact absurd rfl hne
  | cons s rest =>
    rw [pathOfSegs_of_ne_nil (by simp), flatSegs_cons]
    intro h
    have hs := (hv s (List.mem_cons_self _ _)).1
    simp only [List.cons.injEq] at h
    exact hs (List.append_eq_nil.mp h.2).1

theorem valid_dropLast {cs : List (List Char)} (hv : ValidSegs cs) :
    ValidSegs cs.dropLast :=
  fun s hs => hv s ((List.dropLast_sublist cs).subset hs)

theorem jsLastIndexOf_of_not_mem {s : List Char} {ch : Char} (h : ch ∉ s) :
    jsLastIndexOf s ch = -1 := by
  induction s with
  | nil => rfl
  | cons a rest ih =>
    have ha : a ≠ ch := fun hEq => h (hEq ▸ List.mem_cons_self a rest)
    have hr : ch ∉ rest := fun hm => h (List.mem_cons_of_mem _ hm)
    simp [jsLastIndexOf, ih hr, ha]

theorem jsLastIndexOf_lt_length (s : List Char) (ch : Char) :
    jsLastIndexOf s ch < (s.length : Int) := by
  induction s with
  | nil => simp [jsLastIndexOf]
  | cons a rest ih =>
    simp only [jsLastIndexOf, List.length_cons]
    by_cases h : jsLastIndexOf rest ch ≥ 0
    · simp only [if_pos h]
      push_cast
      omega
    · simp only [if_neg h]
      by_cases ha : a = ch
      · simp only [if_pos ha]
        omega
      · simp only [if_neg ha]
        omega

theorem jsLastIndexOf_append (u s : List Char) (ch : Char) (h : ch ∉ s) :
    jsLastIndexOf (u ++ ch :: s) ch = (u.length : Int) := by
  induction u with
  | nil =>
    simp only [List.nil_append, jsLastIndexOf, jsLastIndexOf_of_not_mem h]
    simp
  | cons a u' ih =>
    simp only [List.cons_append, jsLastIndexOf, List.append_eq, ih]
    have : ((u'.length : Int) ≥ 0) := by positivity
    simp only [if_pos this, List.length_cons]
    push_cast
    ring

theorem jsParentPath_pathOfSegs {cs : List (List Char)} (hv : ValidSegs cs)
    (hne : cs ≠ []) : jsParentPath (pathOfSegs cs) = pathOfSegs cs.dropLast := by
  obtain ⟨ds, s, rfl⟩ : ∃ ds s, cs = ds ++ [s] := by
    rcases List.eq_nil_or_concat cs with h | ⟨L, b, h⟩
    · exact absurd h hne
    · exact ⟨L, b, by simpa [List.concat_eq_append] using h⟩
  have hs : s ≠ [] ∧ '/' ∉ s := hv s (by simp)
  rw [pathOfSegs_of_ne_nil (by simp), flatSegs_append,
    show flatSegs [s] = '/' :: s by simp [flatSegs]]
  simp only [jsParentPath]
  rw [jsLastIndexOf_append _ _ _ hs.2]
  have h2 : jsTake (flatSegs ds ++ '/' :: s) ((flatSegs ds).length : Int) = flatSegs ds := by
    rw [jsTake, Int.toNat_natCast]
    exact List.take_left _ _
  rw [h2]
  by_cases hds : ds = []
  · subst hds
    rw [if_pos (by simp [flatSegs])]
    simp [pathOfSegs_nil]
  · rw [if_neg (fun h => hds ((flatSegs_eq_nil_iff ds).mp h))]
    rw [List.dropLast_concat, pathOfSegs_of_ne_nil hds]

theorem jsSplit_ne_nil (sep : Char) (l : List Char) : jsSplit sep l ≠ [] := by
  cases l with
  | nil => simp [jsSplit]
  | cons a rest =>
    by_cases h : a = sep
    · simp [jsSplit, h]
    · rcases hS : jsSplit sep rest with _ | ⟨g, gs⟩ <;> simp [jsSplit, h, hS]

theorem jsSplit_append_noSep (sep : Char) (s r : List Char) (h : sep ∉ s) :
    jsSplit sep (s ++ r) =
      (s ++ (jsSplit sep r).headD []) :: (jsSplit sep r).tail := by
  induction s with
  | nil =>
    rcases hS : jsSplit sep r with _ | ⟨g, gs⟩
    · exact absurd hS (jsSplit_ne_nil sep r)
    · simp [hS]
  | cons a s' ih =>
    have ha : a ≠ sep := fun hEq => h (hEq ▸ List.mem_cons_self a s')
    have hs' : sep ∉ s' := fun hm => h (List.mem_cons_of_mem _ hm)
    rw [List.cons_append, jsSplit, if_neg ha, ih hs']
    simp

theorem jsSplit_of_not_mem (sep : Char) (r : List Char) (h : sep ∉ r) :
    jsSplit sep r = [r] := by
  have := jsSplit_append_noSep sep r [] h
  simpa [jsSplit] using this

theorem headD_jsSplit_flat (ns : List (List Char)) :
    (jsSplit '/' (flatSegs ns)).headD [] = [] := by
  cases ns with
  | nil => rfl
  | cons s rest => rw [flatSegs_cons, jsSplit, if_pos rfl]; rfl

theorem filter_jsSplit_flat (ns : List (List Char)) (h : ValidSegs ns) :
    (jsSplit '/' (flatSegs ns)).filter (· ≠ []) = ns := by
  induction ns with
  | nil => rfl
  | cons s rest ih =>
    have hs := h s (List.mem_cons_self _ _)
    have hrest : ValidSegs rest := fun x hx => h x (List.mem_cons_of_mem _ hx)
    rw [flatSegs_cons, jsSplit, if_pos rfl, jsSplit_append_noSep _ _ _ hs.2,
      headD_jsSplit_flat, List.append_nil]
    have htail : (jsSplit '/' (flatSegs rest)).tail.filter (· ≠ []) = rest := by
      have hIH := ih hrest
      rcases hS : jsSplit '/' (flatSegs rest) with _ | ⟨g, gs⟩
      · exact absurd hS (jsSplit_ne_nil _ _)
      · have hg : g = [] := by
          have := headD_jsSplit_flat rest
          rw [hS] at this
          simpa using this
        rw [hS, hg] at hIH
        simpa using hIH
    have htail' : List.filter (fun x => !decide (x = []))
        (jsSplit '/' (flatSegs rest)).tail = rest := by
      simpa using htail
    simp [List.filter_cons, hs.1, htail']

theorem filter_jsSplit_path (ns : List (List Char)) (h : ValidSegs ns) :
    (jsSplit '/' (pathOfSegs ns)).filter (· ≠ []) = ns := by
  by_cases hns : ns = []
  · subst hns; rfl
  · rw [pathOfSegs_of_ne_nil hns]
    exact filter_jsSplit_flat ns h

theorem pathOfSegs_inj {as bs : List (List Char)} (ha : ValidSegs as)
    (hb : ValidSegs bs) (h : pathOfSegs as = pathOfSegs bs) : as = bs := by
  rw [← filter_jsSplit_path as ha, ← filter_jsSplit_path bs hb, h]

theorem headD_jsSplit_flat_slash (rest : List (List Char)) (r : List Char) :
    (jsSplit '/' (flatSegs rest ++ '/' :: r)).headD [] = [] := by
  cases rest with
  | nil => rw [show flatSegs [] = [] from rfl, List.nil_append, jsSplit, if_pos rfl]; rfl
  | cons s rest' =>
    rw [flatSegs_cons, List.cons_append, jsSplit, if_pos rfl]
    rfl

theorem filter_jsSplit_flat_slash {cs : List (List Char)} (hv : ValidSegs cs)
    {r : List Char} (hr : '/' ∉ r) :
    (jsSplit '/' (flatSegs cs ++ '/' :: r)).filter (· ≠ []) =
      cs ++ [r].filter (· ≠ []) := by
  induction cs with
  | nil =>
    rw [show flatSegs [] = [] from rfl, List.nil_append, jsSplit, if_pos rfl,
      jsSplit_of_not_mem _ _ hr]
    simp [List.filter_cons]
  | cons s rest ih =>
    have hs := hv s (List.mem_cons_self _ _)
    have hrest : ValidSegs rest := fun x hx => hv x (List.mem_cons_of_mem _ hx)
    rw [flatSegs_cons, List.cons_append, jsSplit, if_pos rfl, List.append_assoc,
      jsSplit_append_noSep _ _ _ hs.2, headD_jsSplit_flat_slash, List.append_nil]
    have htail : (jsSplit '/' (flatSegs rest ++ '/' :: r)).tail.filter (· ≠ []) =
        rest ++ [r].filter (· ≠ []) := by
      have hIH := ih hrest
      rcases hS : jsSplit '/' (flatSegs rest ++ '/' :: r) with _ | ⟨g, gs⟩
      · exact absurd hS (jsSplit_ne_nil _ _)
      · have hg : g = [] := by
          have := headD_jsSplit_flat_slash rest r
          rw [hS] at this
          simpa using this
        rw [hS, hg] at hIH
        simpa using hIH
    have htail' : List.filter (fun x => !decide (x = []))
        (jsSplit '/' (flatSegs rest ++ '/' :: r)).tail = rest ++ [r].filter (· ≠ []) := by
      simpa using htail
    simp [List.filter_cons, hs.1, htail']

/-- The non-root direct-child check of `isAdjacentNode`, characterised on
canonical paths: it holds iff the candidate's segments extend the current
segments by exactly one. -/
theorem childCheck_iff {ns cs : List (List Char)} (hvn : ValidSegs ns)
    (hvc : ValidSegs cs) (hne : cs ≠ []) :
    (((pathOfSegs cs ++ ['/']).isPrefixOf (pathOfSegs ns) &&
      !(((pathOfSegs ns).drop ((pathOfSegs cs).length + 1)).contains '/')) = true ↔
    (ns ≠ [] ∧ ns.dropLast = cs)) := by
  constructor
  · intro h
    rw [Bool.and_eq_true] at h
    obtain ⟨hpre, hnc⟩ := h
    rw [List.isPrefixOf_iff_prefix] at hpre
    obtain ⟨r, hr⟩ := hpre
    have hdrop : (pathOfSegs ns).drop ((pathOfSegs cs).length + 1) = r := by
      rw [← hr]
      exact List.drop_left' (by simp)
    rw [hdrop] at hnc
    have hrs : '/' ∉ r := by
      intro hm
      have hcont : r.contains '/' = true := List.elem_iff.mpr hm
      rw [hcont] at hnc
      exact absurd hnc (by simp)
    have hc : pathOfSegs cs = flatSegs cs := pathOfSegs_of_ne_nil hne
    have hn : pathOfSegs ns = flatSegs cs ++ '/' :: r := by
      rw [← hr, hc]
      simp
    have h5 := filter_jsSplit_path ns hvn
    rw [hn, filter_jsSplit_flat_slash hvc hrs] at h5
    by_cases hrnil : r = []
    · exfalso
      subst hrnil
      simp only [List.filter_cons, List.filter_nil] at h5
      rw [if_neg (by simp), List.append_nil] at h5
      rw [← h5, pathOfSegs_of_ne_nil hne] at hn
      have := congrArg List.length hn
      simp at this
    · have hfil : [r].filter (· ≠ []) = [r] := by simp [List.filter_cons, hrnil]
      rw [hfil] at h5
      subst h5
      exact ⟨by simp, by simp⟩
  · rintro ⟨hnne, hdl⟩
    obtain ⟨L, b, rfl⟩ : ∃ L b, ns = L ++ [b] := by
      rcases List.eq_nil_or_concat ns with h | ⟨L, b, h⟩
      · exact absurd h hnne
      · exact ⟨L, b, by simpa [List.concat_eq_append] using h⟩
    rw [List.dropLast_concat] at hdl
    subst hdl
    have hs : b ≠ [] ∧ '/' ∉ b := hvn b (by simp)
    have hflat : pathOfSegs (L ++ [b]) = (pathOfSegs L ++ ['/']) ++ b := by
      rw [pathOfSegs_of_ne_nil (by simp), flatSegs_append, pathOfSegs_of_ne_nil hne]
      simp [flatSegs]
    rw [hflat, Bool.and_eq_true]
    refine ⟨List.isPrefixOf_iff_prefix.mpr ⟨b, rfl⟩, ?_⟩
    rw [List.drop_left' (by simp)]
    have hb : b.contains '/' = false := by
      rw [← Bool.not_eq_true]
      intro hcb
      exact hs.2 (List.elem_iff.mp hcb)
    rw [hb]
    rfl

/-- `isAdjacentNode(p, p)` is false for every string `p`, canonical or not. -/
theorem isAdjacentNode_self (p : List Char) : isAdjacentNode p p = false := by
  by_cases hr : p = ['/']
  · subst hr
    decide
  · have hpar : p ≠ jsParentPath p := by
      simp only [jsParentPath]
      by_cases hnil : jsTake p (jsLastIndexOf p '/') = []
      · rw [if_pos hnil]
        exact hr
      · rw [if_neg hnil]
        intro hEq
        have hk := jsLastIndexOf_lt_length p '/'
        rcases Int.lt_or_le (jsLastIndexOf p '/') 0 with hneg | hpos
        · refine hnil ?_
          rw [jsTake, Int.toNat_of_nonpos (le_of_lt hneg)]
          rfl
        · have htn : (jsLastIndexOf p '/').toNat < p.length := by omega
          have hlen := congrArg List.length hEq
          rw [jsTake, List.length_take] at hlen
          omega
    rw [isAdjacentNode, if_neg (fun h => hpar h.2), if_neg hr]
    have hpre : (p ++ ['/']).isPrefixOf p = false := by
      rw [← Bool.not_eq_true]
      intro h
      have := (List.isPrefixOf_iff_prefix.mp h).length_le
      simp at this
    rw [hpre]
    rfl

/-- Characterisation of `isAdjacentNode` on canonical '/'-delimited paths:
true iff the candidate is the direct parent or a direct child under segment
decomposition. -/
theorem isAdjacentNode_pathOfSegs_iff {ns cs : List (List Char)}
    (hvn : ValidSegs ns) (hvc : ValidSegs cs) :
    (isAdjacentNode (pathOfSegs ns) (pathOfSegs cs) = true ↔
      (cs ≠ [] ∧ ns = cs.dropLast) ∨ (ns ≠ [] ∧ ns.dropLast = cs)) := by
  by_cases hcs : cs = []
  · subst hcs
    rw [isAdjacentNode, pathOfSegs_nil, if_neg (by simp), if_pos rfl,
      filter_jsSplit_path ns hvn]
    simp only [beq_iff_eq]
    constructor
    · intro h1
      obtain ⟨a, rfl⟩ := List.length_eq_one.mp h1
      exact Or.inr ⟨by simp, by simp⟩
    · rintro (⟨h, _⟩ | ⟨hne, hdl⟩)
      · exact absurd rfl h
      · cases ns with
        | nil => exact absurd rfl hne
        | cons a tl =>
          cases tl with
          | nil => simp
          | cons b tl' => simp [List.dropLast] at hdl
  · have hroot : pathOfSegs cs ≠ ['/'] := pathOfSegs_ne_root hvc hcs
    rw [isAdjacentNode]
    by_cases hpar : pathOfSegs ns = jsParentPath (pathOfSegs cs)
    · rw [if_pos ⟨hroot, hpar⟩]
      constructor
      · intro _
        refine Or.inl ⟨hcs, ?_⟩
        rw [jsParentPath_pathOfSegs hvc hcs] at hpar
        exact pathOfSegs_inj hvn (valid_dropLast hvc) hpar
      · intro _
        rfl
    · rw [if_neg (fun h => hpar h.2), if_neg hroot,
        childCheck_iff hvn hvc hcs]
      constructor
      · exact Or.inr
      · rintro (⟨_, hdl⟩ | h)
        · exact absurd (hdl ▸ (jsParentPath_pathOfSegs hvc hcs).symm) hpar
        · exact h

/-- **C1.** On canonical '/'-delimited paths, `isAdjacentNode` returns true
iff the candidate is the direct parent of the current path under segment
decomposition or a direct child of it; `isAdjacentNode(p, p)` is false for
*every* string `p`; grandchildren and siblings are never adjacent. -/
theorem adjacency_resolver_correct :
    (∀ ns cs : List (List Char), ValidSegs ns → ValidSegs cs →
      (isAdjacentNode (pathOfSegs ns) (pathOfSegs cs) = true ↔
        (cs ≠ [] ∧ ns = cs.dropLast) ∨ (ns ≠ [] ∧ ns.dropLast = cs))) ∧
    (∀ p : List Char, isAdjacentNode p p = false) ∧
    (∀ (cs : List (List Char)) (s₁ s₂ : List Char), ValidSegs cs →
      s₁ ≠ [] → '/' ∉ s₁ → s₂ ≠ [] → '/' ∉ s₂ →
      isAdjacentNode (pathOfSegs (cs ++ [s₁, s₂])) (pathOfSegs cs) = false) ∧
    (∀ (ds : List (List Char)) (s s' : List Char), ValidSegs ds →
      s ≠ [] → '/' ∉ s → s' ≠ [] → '/' ∉ s' → s ≠ s' →
      isAdjacentNode (pathOfSegs (ds ++ [s'])) (pathOfSegs (ds ++ [s])) = false) := by
  refine ⟨fun ns cs hvn hvc => isAdjacentNode_pathOfSegs_iff hvn hvc,
    isAdjacentNode_self, ?_, ?_⟩
  · intro cs s₁ s₂ hvc h1 h1' h2 h2'
    have hvn : ValidSegs (cs ++ [s₁, s₂]) := by
      intro x hx
      rcases List.mem_append.mp hx with h | h
      · exact hvc x h
      · simp only [List.mem_cons, List.mem_singleton, List.not_mem_nil,
          or_false] at h
        rcases h with rfl | rfl
        · exact ⟨h1, h1'⟩
        · exact ⟨h2, h2'⟩
    rw [← Bool.not_eq_true]
    intro htrue
    rcases (isAdjacentNode_pathOfSegs_iff hvn hvc).mp htrue with ⟨hne, hdl⟩ |
      ⟨hne, hdl⟩
    · have hlen := congrArg List.length hdl
      rw [List.length_dropLast] at hlen
      simp at hlen
      omega
    · rw [show cs ++ [s₁, s₂] = (cs ++ [s₁]) ++ [s₂] by simp,
        List.dropLast_concat] at hdl
      have hlen := congrArg List.length hdl
      simp at hlen
  · intro ds s s' hvd hs hs' ht ht' hne
    have hvn : ValidSegs (ds ++ [s']) := by
      intro x hx
      rcases List.mem_append.mp hx with h | h
      · exact hvd x h
      · simp only [List.mem_singleton] at h
        exact h ▸ ⟨ht, ht'⟩
    have hvc : ValidSegs (ds ++ [s]) := by
      intro x hx
      rcases List.mem_append.mp hx with h | h
      · exact hvd x h
      · simp only [List.mem_singleton] at h
        exact h ▸ ⟨hs, hs'⟩
    rw [← Bool.not_eq_true]
    intro htrue
    rcases (isAdjacentNode_pathOfSegs_iff hvn hvc).mp htrue with ⟨_, hdl⟩ |
      ⟨_, hdl⟩
    · rw [List.dropLast_concat] at hdl
      have hlen := congrArg List.length hdl
      simp at hlen
    · rw [List.dropLast_concat] at hdl
      have hlen := congrArg List.length hdl
      simp at hlen

/-- Witness for C1: from `/`, the single-segment candidate `/home` is
navigable; `/usr` is never navigable from itself. -/
theorem adjacency_resolver_correct_witness :
    ValidSegs [['h', 'o', 'm', 'e']] ∧ ValidSegs ([] : List (List Char)) ∧
    isAdjacentNode (pathOfSegs [['h', 'o', 'm', 'e']]) (pathOfSegs []) = true ∧
    isAdjacentNode ['/', 'u', 's', 'r'] ['/', 'u', 's', 'r'] = false :=
  ⟨by decide, by decide,
    (adjacency_resolver_correct.1 [['h', 'o', 'm', 'e']] [] (by decide)
      (by decide)).mpr (Or.inr ⟨by decide, by decide⟩),
    adjacency_resolver_correct.2.1 ['/', 'u', 's', 'r']⟩

end Bashamole
